import Mathlib

/-!
Verification of the RepliCan-C4C maintenance scripts (`fix_code_url.py`,
`fix_submission.py`).  The scripts load a YAML/JSON mapping, rewrite it in
memory, and write it back.  We embed the YAML value universe as `Val`,
records as insertion-ordered association lists (Python dicts), and each
script-level operation as a Lean function.  Operations that can raise a
Python exception (which the scripts catch and turn into a `False` return,
writing nothing) are modelled with `Option`: `none` is the caught-exception
path, `some` carries the successful result.
-/

/-- A YAML/JSON value as produced by `yaml.safe_load` / `json.load`:
`null`, booleans, integers, strings, sequences and mappings (mappings keep
insertion order, like Python dicts). -/
inductive Val where
  | null : Val
  | bool (b : Bool) : Val
  | num (n : Int) : Val
  | str (s : String) : Val
  | list (items : List Val) : Val
  | map (entries : List (String × Val)) : Val

/-- `d[k]` lookup in a Python dict modelled as an ordered association list:
first binding of the key wins. -/
def lookup : List (String × Val) → String → Option Val
  | [], _ => none
  | (k, v) :: rest, key => if k = key then some v else lookup rest key

/-- Python `d.get(k, default)`. -/
def getD (d : List (String × Val)) (k : String) (default : Val) : Val :=
  (lookup d k).getD default

/-- Python `d[k] = v`: replace the value in place if the key exists
(keeping its position), append the binding otherwise. -/
def setKey : List (String × Val) → String → Val → List (String × Val)
  | [], k, v => [(k, v)]
  | (k2, v2) :: rest, k, v =>
    if k2 = k then (k, v) :: rest else (k2, v2) :: setKey rest k v

/-- Python truthiness (`bool(x)`) on the YAML value universe. -/
def truthy : Val → Bool
  | .null => false
  | .bool b => b
  | .num n => n != 0
  | .str s => s != ""
  | .list l => !l.isEmpty
  | .map m => !m.isEmpty

/-- The code points of the characters Python treats as whitespace: the set
removed by `str.strip()` and matched by the regex class backslash-s on
`str` patterns (the two sets coincide in CPython).  It holds the classic
ASCII whitespace, the ASCII separators `\x1c`-`\x1f`, and the Unicode
whitespace characters: `\x85`, `\xa0`, the Ogham space mark, the en/em
space series `\x2000`-`\x200a`, the line and paragraph separators, the
narrow and medium spaces, and the ideographic space. -/
def pySpaceCodes : List Nat :=
  [9, 10, 11, 12, 13, 28, 29, 30, 31, 32, 133, 160, 5760,
   8192, 8193, 8194, 8195, 8196, 8197, 8198, 8199, 8200, 8201, 8202,
   8232, 8233, 8239, 8287, 12288]

/-- Python whitespace test on a code point. -/
def isPySpaceNat (n : Nat) : Bool :=
  pySpaceCodes.any fun k => n == k

/-- The whitespace characters recognised by Python `str.strip()` and by the
regex class backslash-s. -/
def isPySpace (c : Char) : Bool :=
  isPySpaceNat c.toNat

/-- The code-point ranges of the Unicode decimal digits (category `Nd`),
exactly the characters the regex class backslash-d matches on `str`
patterns in Python. -/
def pyDigitRanges : List (Nat × Nat) :=
  [(48, 57), (1632, 1641), (1776, 1785), (1984, 1993), (2406, 2415),
   (2534, 2543), (2662, 2671), (2790, 2799), (2918, 2927), (3046, 3055),
   (3174, 3183), (3302, 3311), (3430, 3439), (3558, 3567), (3664, 3673),
   (3792, 3801), (3872, 3881), (4160, 4169), (4240, 4249), (6112, 6121),
   (6160, 6169), (6470, 6479), (6608, 6617), (6784, 6793), (6800, 6809),
   (6992, 7001), (7088, 7097), (7232, 7241), (7248, 7257), (42528, 42537),
   (43216, 43225), (43264, 43273), (43472, 43481), (43504, 43513),
   (43600, 43609), (44016, 44025), (65296, 65305), (66720, 66729),
   (68912, 68921), (69734, 69743), (69872, 69881), (69942, 69951),
   (70096, 70105), (70384, 70393), (70736, 70745), (70864, 70873),
   (71248, 71257), (71360, 71369), (71472, 71481), (71904, 71913),
   (72016, 72025), (72784, 72793), (73040, 73049), (73120, 73129),
   (92768, 92777), (92864, 92873), (93008, 93017), (120782, 120831),
   (123200, 123209), (123632, 123641), (125264, 125273), (130032, 130041)]

/-- Python decimal-digit test on a code point. -/
def isPyDigitNat (n : Nat) : Bool :=
  pyDigitRanges.any fun r => decide (r.1 ≤ n) && decide (n ≤ r.2)

/-- The characters matched by the Python regex class backslash-d. -/
def isPyDigit (c : Char) : Bool :=
  isPyDigitNat c.toNat

/-- Python `s.startswith(pre)`: character-level prefix test. -/
def startsWithPy (s pre : String) : Bool :=
  pre.toList.isPrefixOf s.toList

/-- Python `s.strip()` on a character list: remove leading and trailing
whitespace. -/
def stripL (l : List Char) : List Char :=
  ((l.dropWhile isPySpace).reverse.dropWhile isPySpace).reverse

/-- The substitution `re.sub(r'^\s*\d+\.\s*', '', l)` from
`fix_submission.py` line 55: if the string starts with optional whitespace,
one or more decimal digits and a period, remove that prefix together with
the whitespace that follows it; otherwise return the string unchanged. -/
def stripNumbering (l : List Char) : List Char :=
  let t := l.dropWhile isPySpace
  let ds := t.takeWhile isPyDigit
  let rest := t.dropWhile isPyDigit
  if ds.isEmpty then l
  else if rest.head? = some '.' then rest.tail.dropWhile isPySpace
  else l

/-- Python `s.rstrip('.')`: remove all trailing period characters. -/
def rstripDots (l : List Char) : List Char :=
  (l.reverse.dropWhile (fun c => c == '.')).reverse

/-- Lines 55-59 of `fix_submission.py` for one string instruction:
strip, remove a leading numbering prefix, remove trailing periods; `none`
when the cleaned result is empty (the entry is dropped). -/
def cleanInstL (l : List Char) : Option (List Char) :=
  let c := rstripDots (stripNumbering (stripL l))
  if c.isEmpty then none else some c

/-- `cleanInstL` on strings. -/
def cleanInst (s : String) : Option String :=
  (cleanInstL s.toList).map fun l => ⟨l⟩

/-- The single-quote character (used by the Python `repr` of strings). -/
def squoteC : Char := Char.ofNat 39

/-- The double-quote character. -/
def dquoteC : Char := Char.ofNat 34

/-- Escaping of one character inside a Python string repr (the common
escapes; exotic control characters are left as they are). -/
def escapeIn (quote : Char) (c : Char) : String :=
  if c = '\\' then "\\\\"
  else if c = '\n' then "\\n"
  else if c = '\r' then "\\r"
  else if c = '\t' then "\\t"
  else if c = quote then "\\" ++ String.singleton quote
  else String.singleton c

/-- Python `repr` of a string: single-quoted, switching to double quotes
when the text holds a single quote but no double quote. -/
def reprQuote (s : String) : String :=
  let q := if s.contains squoteC && !(s.contains dquoteC) then dquoteC else squoteC
  String.singleton q ++ String.join (s.toList.map (escapeIn q)) ++ String.singleton q

mutual

/-- Python `repr()` on the YAML value universe. -/
def pyRepr : Val → String
  | .null => "None"
  | .bool b => if b then "True" else "False"
  | .num n => toString n
  | .str s => reprQuote s
  | .list items => "[" ++ pyReprList items ++ "]"
  | .map entries => "\x7b" ++ pyReprMap entries ++ "\x7d"

/-- Comma-separated reprs of the items of a sequence. -/
def pyReprList : List Val → String
  | [] => ""
  | [v] => pyRepr v
  | v :: rest => pyRepr v ++ ", " ++ pyReprList rest

/-- Comma-separated `key: value` reprs of the entries of a mapping. -/
def pyReprMap : List (String × Val) → String
  | [] => ""
  | [(k, v)] => reprQuote k ++ ": " ++ pyRepr v
  | (k, v) :: rest => reprQuote k ++ ": " ++ pyRepr v ++ ", " ++ pyReprMap rest

end

/-- Python `str()` on the YAML value universe (`str` is the identity on
strings and agrees with `repr` on everything else). -/
def pyStr : Val → String
  | .str s => s
  | v => pyRepr v

/-- One iteration of the instruction-cleaning loop (lines 52-61 of
`fix_submission.py`): a string is cleaned and kept only when non-empty
afterwards, anything else is appended as its `str()` representation. -/
def cleanOne : Val → List Val
  | .str s =>
    match cleanInst s with
    | some c => [.str c]
    | none => []
  | v => [.str (pyStr v)]

/-- The whole instruction-cleaning loop over a list of entries. -/
def cleanList : List Val → List Val
  | [] => []
  | v :: rest => cleanOne v ++ cleanList rest

/-- Lines 45-48 of `fix_submission.py`: a bare string instruction is
wrapped into a one-element list; iterating any other Python value yields
its elements (a dict yields its keys, a string its characters), and
iterating a scalar raises `TypeError` (`none`). -/
def getInstrs : Val → Option (List Val)
  | .str s => some [.str s]
  | .list l => some l
  | .map m => some (m.map fun kv => Val.str kv.1)
  | _ => none

/-- Lines 39-63 of `fix_submission.py` for one claim: `claim.get` raises on
a non-dict (`none`); otherwise build the fixed claim with the cleaned
instruction list. -/
def fixClaim : Val → Option Val
  | .map m =>
    match getInstrs (getD m "instruction" (.list [])) with
    | none => none
    | some is =>
      some (.map [("claim", getD m "claim" (.str "")), ("instruction", .list (cleanList is))])
  | _ => none

/-- Iterating the value of the `claims` field (`for claim in data['claims']`):
lists yield items, dicts keys, strings characters; scalars raise. -/
def iterateVal : Val → Option (List Val)
  | .list l => some l
  | .map m => some (m.map fun kv => Val.str kv.1)
  | .str s => some (s.toList.map fun c => Val.str (String.singleton c))
  | _ => none

/-- Option-valued map over a list: `none` as soon as one element fails
(the first raised exception aborts the loop). -/
def mapOption (f : α → Option β) : List α → Option (List β)
  | [] => some []
  | x :: xs =>
    match f x with
    | none => none
    | some y =>
      match mapOption f xs with
      | none => none
      | some ys => some (y :: ys)

/-- Lines 37-64 of `fix_submission.py`: the fixed `claims` list, `[]` when
the field is absent or falsy, `none` when processing raises. -/
def fixedClaims (d : List (String × Val)) : Option (List Val) :=
  match lookup d "claims" with
  | none => some []
  | some v =>
    if truthy v then
      match iterateVal v with
      | none => none
      | some items => mapOption fixClaim items
    else some []

/-- The `fixed_data` dict literal of lines 24-34 of `fix_submission.py`
(with the already-processed claims list plugged in). -/
def mkFixed (u pt pp idv cu du : Val) (cs : List Val) (nr : Val) :
    List (String × Val) :=
  [("username", u), ("paper_title", pt), ("paper_pdf", pp), ("identifier", idv),
   ("claim_type", .str "custom_code"), ("code_url", cu), ("data_url", du),
   ("claims", .list cs), ("non_reproducible_claims", nr)]

/-- Lines 69-72 of `fix_submission.py` for one URL field value: skipped
when falsy; a truthy string yields a (possibly empty) warning list; calling
`.startswith` on a truthy non-string raises (`none`). -/
def warnField (fld : String) : Val → Option (List String)
  | v =>
    if truthy v then
      match v with
      | .str s =>
        some (if s != "NOT_SPECIFIED" && !(startsWithPy s "http://" || startsWithPy s "https://")
              then [fld] else [])
      | _ => none
    else some []

/-- `if field in fixed_data and fixed_data[field]` plus the warning check. -/
def warnLookup (fixed : List (String × Val)) (fld : String) : Option (List String) :=
  match lookup fixed fld with
  | none => some []
  | some v => warnField fld v

/-- Lines 66-72 of `fix_submission.py`: the URL-shape warnings for the
three URL fields, in loop order; `none` when the check raises. -/
def urlWarnings (fixed : List (String × Val)) : Option (List String) :=
  match warnLookup fixed "paper_pdf" with
  | none => none
  | some a =>
    match warnLookup fixed "code_url" with
    | none => none
    | some b =>
      match warnLookup fixed "data_url" with
      | none => none
      | some c => some (a ++ b ++ c)

/-- The `fixed_data` record built from the input `data` and an
already-processed claims list. -/
def fixedOf (data : List (String × Val)) (cs : List Val) : List (String × Val) :=
  mkFixed (getD data "username" (.str "")) (getD data "paper_title" (.str ""))
    (getD data "paper_pdf" (.str "")) (getD data "identifier" (.str ""))
    (getD data "code_url" (.str "NOT_SPECIFIED")) (getD data "data_url" (.str "NOT_SPECIFIED"))
    cs (getD data "non_reproducible_claims" (.list []))

/-- `fix_submission_file` of `fix_submission.py` on an in-memory record:
`some (fixed, warnings)` means the function printed the warnings, wrote
`fixed` to the output path and returned `True`; `none` means an exception
was raised, caught at lines 81-83, nothing was written and `False` was
returned. -/
def fix_submission_file (data : List (String × Val)) :
    Option (List (String × Val) × List String) :=
  match fixedClaims data with
  | none => none
  | some cs =>
    match urlWarnings (fixedOf data cs) with
    | none => none
    | some w => some (fixedOf data cs, w)

/-- Outcome of `fix_code_url` in `fix_code_url.py`: the record was patched
and rewritten (`fixed`, return `True`), left alone (`alreadyValid`, return
`False`), or an exception was caught (`error`, return `False`). -/
inductive UrlFixOutcome where
  | fixed : UrlFixOutcome
  | alreadyValid : UrlFixOutcome
  | error : UrlFixOutcome
deriving DecidableEq

/-- The fallback URL constant of `fix_code_url.py` line 17. -/
def fallbackUrl : Val := Val.str "http://www.quantum-espresso.org/download"

/-- `fix_code_url` of `fix_code_url.py` on an in-memory record: lines
15-26.  `code_url.strip()` on a truthy non-string, non-sentinel value
raises `AttributeError`, caught at lines 28-30 (the file is then left
unchanged). -/
def fix_code_url (data : List (String × Val)) :
    UrlFixOutcome × List (String × Val) :=
  let code_url := getD data "code_url" (Val.str "")
  if truthy code_url then
    match code_url with
    | Val.str s =>
      if s = "NOT_SPECIFIED" then (.fixed, setKey data "code_url" fallbackUrl)
      else if (stripL s.toList).isEmpty then (.fixed, setKey data "code_url" fallbackUrl)
      else (.alreadyValid, data)
    | _ => (.error, data)
  else (.fixed, setKey data "code_url" fallbackUrl)

/-- The characters accepted by the filename pattern `[a-zA-Z0-9_.-]`. -/
def allowedChar (c : Char) : Bool :=
  c.isAlpha || c.isDigit || c == '_' || c == '.' || c == '-'

/-- `re.sub(r'[^a-zA-Z0-9_.-]', '_', c)` on one character. -/
def fixChar (c : Char) : Char :=
  if allowedChar c then c else '_'

/-- `os.path.basename`: the part after the last slash. -/
def basename (s : String) : String :=
  ⟨(s.toList.reverse.takeWhile (fun c => c != '/')).reverse⟩

/-- `re.match(r'^[a-zA-Z0-9_.-]+$', l)` as a predicate: one or more
allowed characters spanning the whole string — except that the Python `$`
anchor also matches just before a single trailing newline, so a name of
allowed characters followed by one final newline matches too. -/
def matchAllowedName : List Char → Bool
  | [] => false
  | [c] => allowedChar c
  | [c, c2] => allowedChar c && (c2 == '\n' || allowedChar c2)
  | c :: rest => allowedChar c && matchAllowedName rest

/-- `validate_filename` of `fix_submission.py` lines 85-97. -/
def validate_filename (filename : String) : Bool × String :=
  let b := basename filename
  if matchAllowedName b.toList then (true, b)
  else (false, ⟨b.toList.map fixChar⟩)

/-- The per-file boundary of `fix_submission_file`: loading may already
raise (`none` input, caught, reported, `False`); otherwise the boolean
outcome of the record transformation. -/
def fix_submission_outcome : Option (List (String × Val)) → Bool
  | none => false
  | some d => (fix_submission_file d).isSome

/-- The counting loop of `batch_fix_submissions` (lines 118-142 of
`fix_submission.py`): one (successful, failed) tally over the discovered
files, each file contributing to exactly one counter. -/
def batch_fix_submissions (files : List (Option (List (String × Val)))) : Nat × Nat :=
  files.foldl
    (fun acc f => if fix_submission_outcome f then (acc.1 + 1, acc.2) else (acc.1, acc.2 + 1))
    (0, 0)

/-- Decidable check that one cleaned instruction entry is a string the
cleaning pass maps to itself. -/
def instrFixedVal : Val → Bool
  | .str s => decide (cleanInst s = some s)
  | _ => false

/-- Decidable check that every instruction entry of a fixed claim is a
fixed point of the cleaning pass. -/
def claimInstrFixed : Val → Bool
  | .map m =>
    match getD m "instruction" (.list []) with
    | .list is => is.all instrFixedVal
    | _ => false
  | _ => false

/-- Decidable check, on an already-normalized record, that a second
cleaning pass changes no instruction string. -/
def cleanedFixed (r : List (String × Val)) : Bool :=
  match lookup r "claims" with
  | some (.list cs) => cs.all claimInstrFixed
  | _ => false

/-- Decidable check that a fixed claim carries exactly the keys `claim`
and `instruction`, in this order. -/
def claimKeysOk : Val → Bool
  | .map m => m.map Prod.fst == ["claim", "instruction"]
  | _ => false

/-- Decidable check that the `claims` value of a record is a list whose
entries all pass `claimKeysOk`. -/
def claimsKeysOk (r : List (String × Val)) : Bool :=
  match lookup r "claims" with
  | some (.list cs) => cs.all claimKeysOk
  | _ => false

/-- The non-string, non-iterable scalars: iterating them raises
`TypeError`. -/
def nonIterable : Val → Bool
  | .num _ => true
  | .bool _ => true
  | .null => true
  | _ => false

/-- A URL field value on which the validation loop cannot raise: falsy, or
a string. -/
def urlOk (v : Val) : Bool :=
  if truthy v then
    match v with
    | .str _ => true
    | _ => false
  else true

/-- The last character of a list, with a fallback for the empty list
(used to state side conditions about the final character of a string). -/
def lastD (l : List Char) (d : Char) : Char :=
  l.reverse.headD d

/-- The instruction strings of the claims of a record, flattened (used to
exhibit that two records differ). -/
def recInstStrings (r : List (String × Val)) : List String :=
  match lookup r "claims" with
  | some (.list cs) =>
    cs.flatMap fun c =>
      match c with
      | .map m =>
        match getD m "instruction" (.list []) with
        | .list is => is.flatMap fun v => match v with | .str s => [s] | _ => []
        | _ => []
      | _ => []
  | _ => []

/-! General helper lemmas about the list combinators used by the
embedding. -/

theorem dropWhile_append_all {α : Type} {p : α → Bool} {l1 l2 : List α}
    (h : l1.all p = true) : (l1 ++ l2).dropWhile p = l2.dropWhile p := by
  induction l1 with
  | nil => rfl
  | cons a t ih =>
    simp only [List.all_cons, Bool.and_eq_true] at h
    simp [List.dropWhile_cons_of_pos h.1, ih h.2]

theorem dropWhile_cons_neg {α : Type} {p : α → Bool} {a : α} {l : List α}
    (h : p a = false) : (a :: l).dropWhile p = a :: l :=
  List.dropWhile_cons_of_neg (by simp [h])

theorem takeWhile_append_cons {α : Type} {p : α → Bool} {l1 l2 : List α} {a : α}
    (h : l1.all p = true) (ha : p a = false) :
    (l1 ++ a :: l2).takeWhile p = l1 := by
  induction l1 with
  | nil => simp [List.takeWhile_cons_of_neg, ha]
  | cons b t ih =>
    simp only [List.all_cons, Bool.and_eq_true] at h
    simp [List.takeWhile_cons_of_pos h.1, ih h.2]

theorem dropWhile_append_cons {α : Type} {p : α → Bool} {l1 l2 : List α} {a : α}
    (h : l1.all p = true) (ha : p a = false) :
    (l1 ++ a :: l2).dropWhile p = a :: l2 := by
  rw [dropWhile_append_all h]
  exact dropWhile_cons_neg ha

theorem lastD_append_single (l : List Char) (a d : Char) :
    lastD (l ++ [a]) d = a := by
  simp [lastD]

theorem exists_concat_of_ne_nil {α : Type} {l : List α} (h : l ≠ []) :
    ∃ t a, l = t ++ [a] := by
  cases hr : l.reverse with
  | nil => exact absurd (by simpa using congrArg List.reverse hr) h
  | cons a t =>
    refine ⟨t.reverse, a, ?_⟩
    have := congrArg List.reverse hr
    simpa using this

theorem pyspace_codes_not_digit :
    pySpaceCodes.all (fun k => !isPyDigitNat k) = true := by decide

theorem not_pyspace_of_isPyDigit {c : Char} (h : isPyDigit c = true) :
    isPySpace c = false := by
  cases hps : isPySpace c with
  | false => rfl
  | true =>
    exfalso
    unfold isPySpace isPySpaceNat at hps
    obtain ⟨k, hk, he⟩ := List.any_eq_true.mp hps
    have hne := List.all_eq_true.mp pyspace_codes_not_digit k hk
    rw [beq_iff_eq] at he
    unfold isPyDigit at h
    rw [he] at h
    rw [h] at hne
    exact absurd hne (by decide)

theorem mapOption_eq_none_of_mem {α β : Type} {f : α → Option β} {l : List α} {x : α}
    (hx : x ∈ l) (hfx : f x = none) : mapOption f l = none := by
  induction l with
  | nil => cases hx
  | cons a t ih =>
    rcases List.mem_cons.mp hx with rfl | hm
    · simp [mapOption, hfx]
    · unfold mapOption
      cases f a with
      | none => rfl
      | some y => rw [ih hm]

theorem mapOption_mem_of_eq_some {α β : Type} {f : α → Option β} {l : List α}
    {l2 : List β} (h : mapOption f l = some l2) : ∀ y ∈ l2, ∃ x ∈ l, f x = some y := by
  induction l generalizing l2 with
  | nil =>
    intro y hy
    unfold mapOption at h
    cases h
    cases hy
  | cons a t ih =>
    intro y hy
    unfold mapOption at h
    cases hfa : f a with
    | none => rw [hfa] at h; cases h
    | some b =>
      rw [hfa] at h
      cases hmt : mapOption f t with
      | none => rw [hmt] at h; cases h
      | some ys =>
        rw [hmt] at h
        cases h
        rcases List.mem_cons.mp hy with rfl | hm
        · exact ⟨a, List.mem_cons_self a t, hfa⟩
        · obtain ⟨x, hxl, hfx⟩ := ih hmt y hm
          exact ⟨x, List.mem_cons_of_mem a hxl, hfx⟩

theorem mapOption_id_of_forall {α : Type} {f : α → Option α} {l : List α}
    (h : ∀ x ∈ l, f x = some x) : mapOption f l = some l := by
  induction l with
  | nil => rfl
  | cons a t ih =>
    unfold mapOption
    rw [h a (List.mem_cons_self a t), ih fun x hx => h x (List.mem_cons_of_mem a hx)]

theorem lookup_setKey_self (l : List (String × Val)) (k : String) (v : Val) :
    lookup (setKey l k v) k = some v := by
  induction l with
  | nil => simp [setKey, lookup]
  | cons kv t ih =>
    by_cases hk : kv.1 = k
    · simp [setKey, hk, lookup]
    · simp [setKey, hk, lookup, ih]

/-! Helper lemmas about the embedded operations. -/

theorem getD_fixedOf_username (d : List (String × Val)) (cs : List Val) (dv : Val) :
    getD (fixedOf d cs) "username" dv = getD d "username" (.str "") := rfl

theorem getD_fixedOf_paper_title (d : List (String × Val)) (cs : List Val) (dv : Val) :
    getD (fixedOf d cs) "paper_title" dv = getD d "paper_title" (.str "") := rfl

theorem getD_fixedOf_paper_pdf (d : List (String × Val)) (cs : List Val) (dv : Val) :
    getD (fixedOf d cs) "paper_pdf" dv = getD d "paper_pdf" (.str "") := rfl

theorem getD_fixedOf_identifier (d : List (String × Val)) (cs : List Val) (dv : Val) :
    getD (fixedOf d cs) "identifier" dv = getD d "identifier" (.str "") := rfl

theorem getD_fixedOf_code_url (d : List (String × Val)) (cs : List Val) (dv : Val) :
    getD (fixedOf d cs) "code_url" dv = getD d "code_url" (.str "NOT_SPECIFIED") := rfl

theorem getD_fixedOf_data_url (d : List (String × Val)) (cs : List Val) (dv : Val) :
    getD (fixedOf d cs) "data_url" dv = getD d "data_url" (.str "NOT_SPECIFIED") := rfl

theorem getD_fixedOf_nrc (d : List (String × Val)) (cs : List Val) (dv : Val) :
    getD (fixedOf d cs) "non_reproducible_claims" dv
      = getD d "non_reproducible_claims" (.list []) := rfl

theorem lookup_fixedOf_claims (d : List (String × Val)) (cs : List Val) :
    lookup (fixedOf d cs) "claims" = some (.list cs) := rfl

theorem lookup_fixedOf_claim_type (d : List (String × Val)) (cs : List Val) :
    lookup (fixedOf d cs) "claim_type" = some (.str "custom_code") := rfl

theorem fix_submission_file_eq {d r : List (String × Val)} {w : List String}
    (h : fix_submission_file d = some (r, w)) :
    ∃ cs, fixedClaims d = some cs ∧ r = fixedOf d cs ∧ urlWarnings r = some w := by
  unfold fix_submission_file at h
  split at h
  · cases h
  · next cs hc =>
    split at h
    · cases h
    · next w2 hw =>
      injection h with h2
      have hr : r = fixedOf d cs := (congrArg Prod.fst h2).symm
      have hww : w = w2 := (congrArg Prod.snd h2).symm
      subst hr; subst hww
      exact ⟨cs, hc, rfl, hw⟩

theorem cleanList_strings (l : List Val) :
    ∃ ss : List String, cleanList l = ss.map Val.str := by
  induction l with
  | nil => exact ⟨[], rfl⟩
  | cons v t ih =>
    obtain ⟨ss, hss⟩ := ih
    cases v with
    | str s =>
      cases hcl : cleanInst s with
      | none => exact ⟨ss, by simp [cleanList, cleanOne, hcl, hss]⟩
      | some c => exact ⟨c :: ss, by simp [cleanList, cleanOne, hcl, hss]⟩
    | null => exact ⟨pyStr .null :: ss, by simp [cleanList, cleanOne, hss, pyStr]⟩
    | bool b => exact ⟨pyStr (.bool b) :: ss, by simp [cleanList, cleanOne, hss, pyStr]⟩
    | num n => exact ⟨pyStr (.num n) :: ss, by simp [cleanList, cleanOne, hss, pyStr]⟩
    | list items => exact ⟨pyStr (.list items) :: ss, by simp [cleanList, cleanOne, hss, pyStr]⟩
    | map entries => exact ⟨pyStr (.map entries) :: ss, by simp [cleanList, cleanOne, hss, pyStr]⟩

theorem fixClaim_shape {c c2 : Val} (h : fixClaim c = some c2) :
    ∃ cv ss, c2 = .map [("claim", cv), ("instruction", .list (List.map Val.str ss))] := by
  cases c with
  | map m =>
    simp only [fixClaim] at h
    split at h
    · cases h
    · next is hg =>
      injection h with h2
      obtain ⟨ss, hss⟩ := cleanList_strings is
      exact ⟨getD m "claim" (.str ""), ss, by rw [← h2, hss]⟩
  | null => cases h
  | bool b => cases h
  | num n => cases h
  | str s => cases h
  | list l => cases h

theorem fixedClaims_mem {d : List (String × Val)} {cs : List Val}
    (h : fixedClaims d = some cs) : ∀ c ∈ cs, ∃ a, fixClaim a = some c := by
  unfold fixedClaims at h
  split at h
  · injection h with h2
    subst h2
    intro c hc; cases hc
  · next v hl =>
    split at h
    · split at h
      · cases h
      · intro c hc
        obtain ⟨x, _, hfx⟩ := mapOption_mem_of_eq_some h c hc
        exact ⟨x, hfx⟩
    · injection h with h2
      subst h2
      intro c hc; cases hc

theorem cleanList_map_str_id {ss : List String}
    (h : ∀ s ∈ ss, cleanInst s = some s) : cleanList (ss.map Val.str) = ss.map Val.str := by
  induction ss with
  | nil => rfl
  | cons s t ih =>
    simp only [List.map_cons, cleanList, cleanOne, h s (List.mem_cons_self s t)]
    rw [ih fun x hx => h x (List.mem_cons_of_mem s hx)]
    rfl

theorem matchAllowedName_all {l : List Char} (h0 : l ≠ [])
    (h : l.all allowedChar = true) : matchAllowedName l = true := by
  induction l with
  | nil => exact absurd rfl h0
  | cons c rest ih =>
    simp only [List.all_cons, Bool.and_eq_true] at h
    cases rest with
    | nil => simpa [matchAllowedName] using h.1
    | cons c2 rest2 =>
      cases rest2 with
      | nil =>
        simp only [List.all_cons, List.all_nil, Bool.and_eq_true] at h
        simp [matchAllowedName, h.1, h.2.1]
      | cons c3 rest3 =>
        have := ih (by simp) h.2
        simp [matchAllowedName, h.1, this]

theorem matchAllowedName_false_of_bad {l : List Char} {c : Char}
    (hc : c ∈ l) (hbad : allowedChar c = false) (hnl : c ≠ '\n') :
    matchAllowedName l = false := by
  induction l with
  | nil => cases hc
  | cons a rest ih =>
    cases rest with
    | nil =>
      rcases List.mem_cons.mp hc with rfl | hm
      · simpa [matchAllowedName] using hbad
      · cases hm
    | cons a2 rest2 =>
      cases rest2 with
      | nil =>
        rcases List.mem_cons.mp hc with rfl | hm
        · simp [matchAllowedName, hbad]
        · rcases List.mem_cons.mp hm with rfl | hm2
          · simp [matchAllowedName, hbad, hnl]
          · cases hm2
      | cons a3 rest3 =>
        rcases List.mem_cons.mp hc with rfl | hm
        · simp [matchAllowedName, hbad]
        · simp [matchAllowedName, ih hm]

theorem matchAllowedName_trailing_newline {core : List Char} (h0 : core ≠ [])
    (h : core.all allowedChar = true) : matchAllowedName (core ++ ['\n']) = true := by
  induction core with
  | nil => exact absurd rfl h0
  | cons c rest ih =>
    simp only [List.all_cons, Bool.and_eq_true] at h
    cases rest with
    | nil => simp [matchAllowedName, h.1]
    | cons c2 rest2 =>
      have := ih (by simp) h.2
      cases rest2 with
      | nil => simpa [matchAllowedName, h.1] using this
      | cons c3 rest3 => simpa [matchAllowedName, h.1] using this

theorem dropLast_append_single (l : List Char) (a : Char) :
    (l ++ [a]).dropLast = l := by
  simp

theorem matchAllowedName_true_elim {l : List Char} (h : matchAllowedName l = true) :
    (l ≠ [] ∧ l.all allowedChar = true) ∨
    (∃ core, core ≠ [] ∧ core.all allowedChar = true ∧ l = core ++ ['\n']) := by
  induction l with
  | nil => cases h
  | cons c rest ih =>
    cases rest with
    | nil =>
      left
      refine ⟨by simp, ?_⟩
      simpa [matchAllowedName] using h
    | cons c2 rest2 =>
      cases rest2 with
      | nil =>
        simp only [matchAllowedName, Bool.and_eq_true, Bool.or_eq_true, beq_iff_eq] at h
        obtain ⟨hc, hd⟩ := h
        rcases hd with rfl | hd2
        · right
          exact ⟨[c], by simp, by simp [hc], rfl⟩
        · left
          refine ⟨by simp, ?_⟩
          simp [hc, hd2]
      | cons c3 rest3 =>
        simp only [matchAllowedName, Bool.and_eq_true] at h
        obtain ⟨hc, hrest⟩ := h
        rcases ih hrest with ⟨_, hall⟩ | ⟨core, hc0, hcall, hl⟩
        · left
          refine ⟨by simp, ?_⟩
          simp [hc, hall]
        · right
          refine ⟨c :: core, by simp, ?_, ?_⟩
          · simp [hc, hcall]
          · rw [hl]
            rfl

theorem fixedClaims_of_list_nil {d : List (String × Val)}
    (h1 : lookup d "claims" = some (Val.list [])) : fixedClaims d = some [] := by
  unfold fixedClaims
  rw [h1]
  rfl

theorem fixedClaims_of_list_ne {d : List (String × Val)} {cs : List Val}
    (h1 : lookup d "claims" = some (Val.list cs)) (hne : cs ≠ []) :
    fixedClaims d = mapOption fixClaim cs := by
  unfold fixedClaims
  rw [h1]
  have htr : truthy (Val.list cs) = true := by
    cases cs with
    | nil => exact absurd rfl hne
    | cons a t => rfl
  show (if truthy (Val.list cs) = true then
          match iterateVal (Val.list cs) with
          | none => none
          | some items => mapOption fixClaim items
        else some []) = mapOption fixClaim cs
  rw [if_pos htr]
  rfl

theorem fix_submission_file_of_claims {d : List (String × Val)} {cs : List Val}
    {w : List String} (hcs : fixedClaims d = some cs)
    (hw : urlWarnings (fixedOf d cs) = some w) :
    fix_submission_file d = some (fixedOf d cs, w) := by
  unfold fix_submission_file
  rw [hcs]
  show (match urlWarnings (fixedOf d cs) with
        | none => none
        | some w2 => some (fixedOf d cs, w2)) = some (fixedOf d cs, w)
  rw [hw]

theorem fixedOf_fixedOf (d : List (String × Val)) (cs : List Val) :
    fixedOf (fixedOf d cs) cs = fixedOf d cs := rfl

theorem cleanedFixed_fixedOf (d : List (String × Val)) (cs : List Val) :
    cleanedFixed (fixedOf d cs) = cs.all claimInstrFixed := rfl

theorem claimsKeysOk_fixedOf (d : List (String × Val)) (cs : List Val) :
    claimsKeysOk (fixedOf d cs) = cs.all claimKeysOk := rfl

theorem lookup_fixedOf_paper_pdf (d : List (String × Val)) (cs : List Val) :
    lookup (fixedOf d cs) "paper_pdf" = some (getD d "paper_pdf" (.str "")) := rfl

theorem lookup_fixedOf_code_url (d : List (String × Val)) (cs : List Val) :
    lookup (fixedOf d cs) "code_url" = some (getD d "code_url" (.str "NOT_SPECIFIED")) := rfl

theorem lookup_fixedOf_data_url (d : List (String × Val)) (cs : List Val) :
    lookup (fixedOf d cs) "data_url" = some (getD d "data_url" (.str "NOT_SPECIFIED")) := rfl

theorem warnLookup_fixedOf_pp (d : List (String × Val)) (cs : List Val) :
    warnLookup (fixedOf d cs) "paper_pdf"
      = warnField "paper_pdf" (getD d "paper_pdf" (.str "")) := rfl

theorem warnLookup_fixedOf_cu (d : List (String × Val)) (cs : List Val) :
    warnLookup (fixedOf d cs) "code_url"
      = warnField "code_url" (getD d "code_url" (.str "NOT_SPECIFIED")) := rfl

theorem warnLookup_fixedOf_du (d : List (String × Val)) (cs : List Val) :
    warnLookup (fixedOf d cs) "data_url"
      = warnField "data_url" (getD d "data_url" (.str "NOT_SPECIFIED")) := rfl

theorem warnField_of_urlOk {v : Val} (fld : String) (h : urlOk v = true) :
    ∃ ws, warnField fld v = some ws := by
  unfold urlOk at h
  by_cases ht : truthy v = true
  · rw [if_pos ht] at h
    cases v with
    | str s =>
      refine ⟨if s != "NOT_SPECIFIED" && !(startsWithPy s "http://" || startsWithPy s "https://")
              then [fld] else [], ?_⟩
      unfold warnField
      rw [if_pos ht]
    | null => cases h
    | bool b => cases h
    | num n => cases h
    | list l => cases h
    | map m => cases h
  · refine ⟨[], ?_⟩
    unfold warnField
    rw [if_neg ht]

theorem urlWarnings_eq {fixed : List (String × Val)} {a b c : List String}
    (ha : warnLookup fixed "paper_pdf" = some a)
    (hb : warnLookup fixed "code_url" = some b)
    (hc : warnLookup fixed "data_url" = some c) :
    urlWarnings fixed = some (a ++ b ++ c) := by
  unfold urlWarnings
  rw [ha]
  show (match warnLookup fixed "code_url" with
        | none => none
        | some b2 =>
          match warnLookup fixed "data_url" with
          | none => none
          | some c2 => some (a ++ b2 ++ c2)) = some (a ++ b ++ c)
  rw [hb]
  show (match warnLookup fixed "data_url" with
        | none => none
        | some c2 => some (a ++ b ++ c2)) = some (a ++ b ++ c)
  rw [hc]

theorem rdrop_last {p : Char → Bool} (l : List Char) (x : Char) (h : p x = false) :
    ((l ++ [x]).reverse.dropWhile p).reverse = l ++ [x] := by
  rw [List.reverse_append]
  show ((x :: l.reverse).dropWhile p).reverse = l ++ [x]
  rw [dropWhile_cons_neg h]
  simp

theorem rstripDots_append_dot {text mid : List Char} {tl : Char}
    (hm : text = mid ++ [tl]) (htl : tl ≠ '.') :
    rstripDots (text ++ ['.']) = text := by
  unfold rstripDots
  rw [List.reverse_append]
  show (('.' :: text.reverse).dropWhile fun c => c == '.').reverse = text
  rw [List.dropWhile_cons_of_pos (by simp)]
  rw [hm, List.reverse_append]
  show ((tl :: mid.reverse).dropWhile fun c => c == '.').reverse = mid ++ [tl]
  rw [dropWhile_cons_neg (by simp [htl])]
  simp

theorem rstripDots_of_last_ne {text mid : List Char} {tl : Char}
    (hm : text = mid ++ [tl]) (htl : tl ≠ '.') : rstripDots text = text := by
  subst hm
  unfold rstripDots
  rw [List.reverse_append]
  show ((tl :: mid.reverse).dropWhile fun c => c == '.').reverse = mid ++ [tl]
  rw [dropWhile_cons_neg (by simp [htl])]
  simp

theorem batch_foldl_counts (files : List (Option (List (String × Val)))) (a b : Nat) :
    files.foldl
      (fun acc f => if fix_submission_outcome f then (acc.1 + 1, acc.2) else (acc.1, acc.2 + 1))
      (a, b)
      = (a + files.countP fix_submission_outcome,
         b + files.countP fun f => !fix_submission_outcome f) := by
  induction files generalizing a b with
  | nil => simp
  | cons f t ih =>
    simp only [List.foldl_cons, List.countP_cons]
    by_cases hf : fix_submission_outcome f = true
    · rw [if_pos hf, ih]
      simp [hf, Prod.ext_iff]
      omega
    · rw [if_neg hf, ih]
      simp only [Bool.not_eq_true] at hf
      simp [hf, Prod.ext_iff]
      omega

theorem countP_add_countP_not {α : Type} (p : α → Bool) (l : List α) :
    l.countP p + l.countP (fun a => !p a) = l.length := by
  induction l with
  | nil => rfl
  | cons a t ih =>
    simp only [List.countP_cons, List.length_cons]
    by_cases hp : p a = true
    · simp [hp]
      omega
    · simp only [Bool.not_eq_true] at hp
      simp [hp]
      omega

/-! The claims. -/

/-- C1: for every record whose `code_url` is absent, `None`, the empty
string, a whitespace-only string or the sentinel `NOT_SPECIFIED`,
`fix_code_url` rewrites `code_url` to the fallback URL, rewrites the file
and reports `fixed` (`True`); for every other non-empty string it reports
`alreadyValid` (`False`) and leaves the record and file unchanged; in the
rewritten record `code_url` holds exactly the fallback URL. -/
theorem c1_code_url_patch (data : List (String × Val)) :
    (lookup data "code_url" = none →
      fix_code_url data = (.fixed, setKey data "code_url" fallbackUrl)) ∧
    (lookup data "code_url" = some Val.null →
      fix_code_url data = (.fixed, setKey data "code_url" fallbackUrl)) ∧
    (∀ s : String, lookup data "code_url" = some (Val.str s) → stripL s.toList = [] →
      fix_code_url data = (.fixed, setKey data "code_url" fallbackUrl)) ∧
    (lookup data "code_url" = some (Val.str "NOT_SPECIFIED") →
      fix_code_url data = (.fixed, setKey data "code_url" fallbackUrl)) ∧
    (∀ s : String, lookup data "code_url" = some (Val.str s) → s ≠ "NOT_SPECIFIED" →
      stripL s.toList ≠ [] → fix_code_url data = (.alreadyValid, data)) ∧
    lookup (setKey data "code_url" fallbackUrl) "code_url" = some fallbackUrl := by
  refine ⟨?_, ?_, ?_, ?_, ?_, lookup_setKey_self data "code_url" fallbackUrl⟩
  · intro h
    have hg : getD data "code_url" (Val.str "") = Val.str "" := by simp [getD, h]
    simp [fix_code_url, hg, truthy]
  · intro h
    have hg : getD data "code_url" (Val.str "") = Val.null := by simp [getD, h]
    simp [fix_code_url, hg, truthy]
  · intro s h hstrip
    have hg : getD data "code_url" (Val.str "") = Val.str s := by simp [getD, h]
    by_cases hse : s = ""
    · subst hse
      simp [fix_code_url, hg, truthy]
    · have hsent : s ≠ "NOT_SPECIFIED" := by
        intro he
        subst he
        exact absurd hstrip (by decide)
      have hstrip2 : stripL s.data = [] := hstrip
      simp [fix_code_url, hg, truthy, hse, hsent, hstrip2]
  · intro h
    have hg : getD data "code_url" (Val.str "") = Val.str "NOT_SPECIFIED" := by simp [getD, h]
    simp [fix_code_url, hg, truthy]
  · intro s h hsent hstrip
    have hg : getD data "code_url" (Val.str "") = Val.str s := by simp [getD, h]
    have hse : s ≠ "" := by
      intro he
      subst he
      exact hstrip (by decide)
    have hie : (stripL s.toList).isEmpty = false := by
      cases he : stripL s.toList with
      | nil => exact absurd he hstrip
      | cons a t => rfl
    have hstrip2 : ¬stripL s.data = [] := hstrip
    simp [fix_code_url, hg, truthy, hse, hsent, hie, hstrip2]

/-- C1 witness: a record with the sentinel value is patched to the
fallback URL. -/
theorem c1_code_url_patch_witness :
    fix_code_url [("code_url", Val.str "NOT_SPECIFIED")]
      = (.fixed, setKey [("code_url", Val.str "NOT_SPECIFIED")] "code_url" fallbackUrl) ∧
    lookup (setKey [("code_url", Val.str "NOT_SPECIFIED")] "code_url" fallbackUrl) "code_url"
      = some fallbackUrl :=
  ⟨(c1_code_url_patch [("code_url", Val.str "NOT_SPECIFIED")]).2.2.2.1 rfl,
   (c1_code_url_patch [("code_url", Val.str "NOT_SPECIFIED")]).2.2.2.2.2⟩

/-- C2: whenever `fix_submission_file` produces a record, that record's
`claim_type` is the string `custom_code`, whatever the input held. -/
theorem c2_claim_type_forced (d r : List (String × Val)) (w : List String)
    (h : fix_submission_file d = some (r, w)) :
    lookup r "claim_type" = some (Val.str "custom_code") := by
  obtain ⟨cs, _, hr, _⟩ := fix_submission_file_eq h
  subst hr
  exact lookup_fixedOf_claim_type d cs

/-- C2 witness: an input that carries a non-string `claim_type` still comes
out with `claim_type = custom_code`. -/
theorem c2_claim_type_forced_witness :
    lookup (fixedOf [("claim_type", Val.num 5)] []) "claim_type"
      = some (Val.str "custom_code") :=
  c2_claim_type_forced [("claim_type", Val.num 5)] (fixedOf [("claim_type", Val.num 5)] []) []
    rfl

/-- C7: the batch driver always completes with one success/failure tally
per file: the counters are exactly the counts of per-file boolean
outcomes, and they always sum to the number of files — no per-file error
propagates past the file boundary (a caught exception only makes that
file's outcome `false`). -/
theorem c7_batch_always_completes (files : List (Option (List (String × Val)))) :
    batch_fix_submissions files
      = (files.countP fix_submission_outcome,
         files.countP fun f => !fix_submission_outcome f) ∧
    (batch_fix_submissions files).1 + (batch_fix_submissions files).2 = files.length := by
  have hb : batch_fix_submissions files
      = (files.countP fix_submission_outcome,
         files.countP fun f => !fix_submission_outcome f) := by
    unfold batch_fix_submissions
    rw [batch_foldl_counts files 0 0]
    simp
  refine ⟨hb, ?_⟩
  rw [hb]
  exact countP_add_countP_not fix_submission_outcome files

/-- C9: every record produced by `fix_submission_file` has exactly the nine
schema keys in schema order (any other input key is dropped), and every
claim in it has exactly the keys `claim` and `instruction` (any other claim
key is dropped). -/
theorem c9_schema_keys (d r : List (String × Val)) (w : List String)
    (h : fix_submission_file d = some (r, w)) :
    r.map Prod.fst = ["username", "paper_title", "paper_pdf", "identifier", "claim_type",
      "code_url", "data_url", "claims", "non_reproducible_claims"] ∧
    claimsKeysOk r = true := by
  obtain ⟨cs, hcs, hr, _⟩ := fix_submission_file_eq h
  subst hr
  refine ⟨rfl, ?_⟩
  rw [claimsKeysOk_fixedOf]
  rw [List.all_eq_true]
  intro c hc
  obtain ⟨a, ha⟩ := fixedClaims_mem hcs c hc
  obtain ⟨cv, ss, hshape⟩ := fixClaim_shape ha
  subst hshape
  rfl

/-- C9 witness: extra top-level keys and extra claim keys of a concrete
input are dropped. -/
theorem c9_schema_keys_witness :
    (fixedOf [("foo", Val.str "x"), ("username", Val.str "u"),
        ("claims", Val.list [Val.map [("claim", Val.str "c"), ("extra", Val.num 7),
          ("instruction", Val.list [Val.str "do"])]])]
      [Val.map [("claim", Val.str "c"), ("instruction", Val.list [Val.str "do"])]]).map Prod.fst
      = ["username", "paper_title", "paper_pdf", "identifier", "claim_type",
         "code_url", "data_url", "claims", "non_reproducible_claims"] ∧
    claimsKeysOk (fixedOf [("foo", Val.str "x"), ("username", Val.str "u"),
        ("claims", Val.list [Val.map [("claim", Val.str "c"), ("extra", Val.num 7),
          ("instruction", Val.list [Val.str "do"])]])]
      [Val.map [("claim", Val.str "c"), ("instruction", Val.list [Val.str "do"])]]) = true :=
  c9_schema_keys
    [("foo", Val.str "x"), ("username", Val.str "u"),
     ("claims", Val.list [Val.map [("claim", Val.str "c"), ("extra", Val.num 7),
       ("instruction", Val.list [Val.str "do"])]])]
    (fixedOf [("foo", Val.str "x"), ("username", Val.str "u"),
        ("claims", Val.list [Val.map [("claim", Val.str "c"), ("extra", Val.num 7),
          ("instruction", Val.list [Val.str "do"])]])]
      [Val.map [("claim", Val.str "c"), ("instruction", Val.list [Val.str "do"])]])
    [] rfl

/-- C10: a record with a truthy `claims` list containing a claim whose
`instruction` is a non-string, non-iterable scalar (a number, boolean or
null) makes `fix_submission_file` fail as a whole: the raised `TypeError`
is caught, `False` is returned and nothing is written (`none`). -/
theorem c10_scalar_instruction_fails (d : List (String × Val)) (cs : List Val)
    (m : List (String × Val))
    (h1 : lookup d "claims" = some (Val.list cs)) (h2 : Val.map m ∈ cs)
    (h3 : nonIterable (getD m "instruction" (Val.list [])) = true) :
    fix_submission_file d = none := by
  have hfc : fixClaim (Val.map m) = none := by
    have hni : getInstrs (getD m "instruction" (Val.list [])) = none := by
      cases hv : getD m "instruction" (Val.list []) with
      | null => rfl
      | bool b => rfl
      | num n => rfl
      | str s => rw [hv] at h3; simp [nonIterable] at h3
      | list l => rw [hv] at h3; simp [nonIterable] at h3
      | map mm => rw [hv] at h3; simp [nonIterable] at h3
    simp only [fixClaim, hni]
  have hne : cs ≠ [] := List.ne_nil_of_mem h2
  have hfcd : fixedClaims d = none := by
    rw [fixedClaims_of_list_ne h1 hne]
    exact mapOption_eq_none_of_mem h2 hfc
  unfold fix_submission_file
  rw [hfcd]

/-- C10 witness: a concrete record whose only claim has a numeric
`instruction` makes the whole file fail. -/
theorem c10_scalar_instruction_fails_witness :
    fix_submission_file [("claims", Val.list [Val.map [("instruction", Val.num 3)]])] = none :=
  c10_scalar_instruction_fails
    [("claims", Val.list [Val.map [("instruction", Val.num 3)]])]
    [Val.map [("instruction", Val.num 3)]]
    [("instruction", Val.num 3)]
    rfl (List.mem_singleton.mpr rfl) rfl

/-- C5 counterexample: the bare one-character instruction string `"."` is
non-empty, yet normalization yields the EMPTY instruction sequence, not a
one-element one — the cleaned form is empty and the entry is dropped. -/
theorem c5_counterexample :
    fixClaim (Val.map [("claim", Val.str ""), ("instruction", Val.str ".")])
      = some (Val.map [("claim", Val.str ""), ("instruction", Val.list [])]) ∧
    ("." : String) ≠ "" :=
  ⟨rfl, by decide⟩

/-- C5 (amended): a claim whose `instruction` is a single non-empty string
normalizes to a one-element sequence holding the cleaned string when the
cleaned form is non-empty; when cleaning leaves the empty string the entry
is dropped and the resulting sequence is empty. -/
theorem c5_bare_string_wrapped (m : List (String × Val)) (s : String)
    (hi : getD m "instruction" (Val.list []) = Val.str s) (_hs : s ≠ "") :
    (∀ c, cleanInst s = some c →
      fixClaim (Val.map m)
        = some (Val.map [("claim", getD m "claim" (Val.str "")),
                         ("instruction", Val.list [Val.str c])])) ∧
    (cleanInst s = none →
      fixClaim (Val.map m)
        = some (Val.map [("claim", getD m "claim" (Val.str "")),
                         ("instruction", Val.list [])])) := by
  constructor
  · intro c hc
    simp only [fixClaim, hi, getInstrs]
    simp [cleanList, cleanOne, hc]
  · intro hc
    simp only [fixClaim, hi, getInstrs]
    simp [cleanList, cleanOne, hc]

/-- C5 witness: the bare string `"1. Do thing."` becomes the one-element
sequence `["Do thing"]`. -/
theorem c5_bare_string_wrapped_witness :
    fixClaim (Val.map [("instruction", Val.str "1. Do thing.")])
      = some (Val.map [("claim", Val.str ""),
                       ("instruction", Val.list [Val.str "Do thing"])]) :=
  (c5_bare_string_wrapped [("instruction", Val.str "1. Do thing.")] "1. Do thing."
    rfl (by decide)).1 "Do thing" rfl

/-- C6 counterexample: `"bad\n"` holds the disallowed character `'\n'`, so
the claim demands rejection with suggestion `"bad_"`; but the Python `$`
anchor matches before a trailing newline, so the code ACCEPTS the name
unchanged. -/
theorem c6_counterexample :
    validate_filename "bad\n" = (true, "bad\n") ∧
    '\n' ∈ (basename "bad\n").toList ∧ allowedChar '\n' = false :=
  ⟨rfl, by decide, rfl⟩

/-- C6 (amended): a filename whose base name is non-empty and all-allowed
is accepted unchanged; so is — a quirk of the Python `$` anchor — one
whose base name is non-empty, all-allowed, and followed by exactly one
final newline; every other filename (any other disallowed character, an
interior or doubled newline, a lone newline, or an empty base name) is
rejected with every disallowed character of the base name replaced by an
underscore. -/
theorem c6_validate_filename (s : String) :
    ((basename s).toList ≠ [] → (basename s).toList.all allowedChar = true →
      validate_filename s = (true, basename s)) ∧
    (∀ core : List Char, core ≠ [] → core.all allowedChar = true →
      (basename s).toList = core ++ ['\n'] →
      validate_filename s = (true, basename s)) ∧
    (¬((basename s).toList ≠ [] ∧ (basename s).toList.all allowedChar = true) →
      ¬((basename s).toList ≠ [] ∧ lastD (basename s).toList 'x' = '\n' ∧
        (basename s).toList.dropLast ≠ [] ∧
        (basename s).toList.dropLast.all allowedChar = true) →
      validate_filename s = (false, ⟨(basename s).toList.map fixChar⟩)) := by
  refine ⟨?_, ?_, ?_⟩
  · intro h0 hall
    have hm : matchAllowedName (basename s).data = true := matchAllowedName_all h0 hall
    simp [validate_filename, hm]
  · intro core h0 hall hlist
    have hm : matchAllowedName (basename s).data = true := by
      have hld : (basename s).data = core ++ ['\n'] := hlist
      rw [hld]
      exact matchAllowedName_trailing_newline h0 hall
    simp [validate_filename, hm]
  · intro hn1 hn2
    have hm : matchAllowedName (basename s).toList = false := by
      cases hmm : matchAllowedName (basename s).toList with
      | false => rfl
      | true =>
        exfalso
        rcases matchAllowedName_true_elim hmm with ⟨h0, hall⟩ | ⟨core, hc0, hcall, hl⟩
        · exact hn1 ⟨h0, hall⟩
        · refine hn2 ⟨?_, ?_, ?_, ?_⟩
          · rw [hl]
            simp
          · rw [hl, lastD_append_single]
          · rw [hl, dropLast_append_single]
            exact hc0
          · rw [hl, dropLast_append_single]
            exact hcall
    have hm2 : matchAllowedName (basename s).data = false := hm
    simp [validate_filename, hm2]

/-- C6 witness: `"bad file!.yaml"` is rejected with suggestion
`"bad_file_.yaml"`, a name with an interior newline is rejected with an
underscore in its place, and an all-allowed name passes unchanged. -/
theorem c6_validate_filename_witness :
    validate_filename "bad file!.yaml" = (false, "bad_file_.yaml") ∧
    validate_filename "a\nb" = (false, "a_b") ∧
    validate_filename "good_file-1.yaml" = (true, "good_file-1.yaml") :=
  ⟨(c6_validate_filename "bad file!.yaml").2.2 (by decide) (by decide),
   (c6_validate_filename "a\nb").2.2 (by decide) (by decide),
   (c6_validate_filename "good_file-1.yaml").1 (by decide) (by decide)⟩

/-- C8 counterexample: a record whose `paper_pdf` is present, non-sentinel
and without an `http(s)://` prefix, but whose `claims` value is a
non-iterable number, is NOT written and `fix_submission_file` returns
`False` (`none`) — the URL condition alone does not guarantee success. -/
theorem c8_counterexample :
    lookup [("paper_pdf", Val.str "ftp://x"), ("claims", Val.num 5)] "paper_pdf"
      = some (Val.str "ftp://x") ∧
    (startsWithPy "ftp://x" "http://" || startsWithPy "ftp://x" "https://") = false ∧
    ("ftp://x" : String) ≠ "NOT_SPECIFIED" ∧
    fix_submission_file [("paper_pdf", Val.str "ftp://x"), ("claims", Val.num 5)] = none :=
  ⟨rfl, by decide, by decide, rfl⟩

/-- C8 (amended): provided the claims normalization succeeds and every URL
field value is falsy or a string, a URL field holding a truthy string that
is non-sentinel and lacks the `http(s)://` prefix only produces a warning
naming that field: the normalized record is still written and the function
still returns `True`. -/
theorem c8_url_warning_nonfatal (d : List (String × Val)) (cs : List Val) (f s : String)
    (hf : f = "paper_pdf" ∨ f = "code_url" ∨ f = "data_url")
    (hcs : fixedClaims d = some cs)
    (hok1 : urlOk (getD d "paper_pdf" (Val.str "")) = true)
    (hok2 : urlOk (getD d "code_url" (Val.str "NOT_SPECIFIED")) = true)
    (hok3 : urlOk (getD d "data_url" (Val.str "NOT_SPECIFIED")) = true)
    (hs : lookup d f = some (Val.str s))
    (hne : s ≠ "") (hsent : s ≠ "NOT_SPECIFIED")
    (hhttp : (startsWithPy s "http://" || startsWithPy s "https://") = false) :
    fix_submission_file d = some (fixedOf d cs, (urlWarnings (fixedOf d cs)).getD []) ∧
    f ∈ (urlWarnings (fixedOf d cs)).getD [] := by
  have htr : truthy (Val.str s) = true := by simp [truthy, hne]
  have hbadfield : ∀ fld : String, warnField fld (Val.str s) = some [fld] := by
    intro fld
    unfold warnField
    rw [if_pos htr]
    have hcond : (s != "NOT_SPECIFIED"
        && !(startsWithPy s "http://" || startsWithPy s "https://")) = true := by
      rw [hhttp]
      simp [hsent]
    show some (if s != "NOT_SPECIFIED"
          && !(startsWithPy s "http://" || startsWithPy s "https://")
        then [fld] else []) = some [fld]
    rw [hcond]
    rfl
  rcases hf with rfl | rfl | rfl
  · have hval : getD d "paper_pdf" (Val.str "") = Val.str s := by simp [getD, hs]
    obtain ⟨wsB, hB⟩ := warnField_of_urlOk "code_url" hok2
    obtain ⟨wsC, hC⟩ := warnField_of_urlOk "data_url" hok3
    have hW : urlWarnings (fixedOf d cs) = some (["paper_pdf"] ++ wsB ++ wsC) := by
      refine urlWarnings_eq ?_ ?_ ?_
      · rw [warnLookup_fixedOf_pp, hval]
        exact hbadfield "paper_pdf"
      · rw [warnLookup_fixedOf_cu]
        exact hB
      · rw [warnLookup_fixedOf_du]
        exact hC
    constructor
    · rw [hW]
      simp only [Option.getD_some]
      exact fix_submission_file_of_claims hcs hW
    · rw [hW]
      simp
  · have hval : getD d "code_url" (Val.str "NOT_SPECIFIED") = Val.str s := by simp [getD, hs]
    obtain ⟨wsA, hA⟩ := warnField_of_urlOk "paper_pdf" hok1
    obtain ⟨wsC, hC⟩ := warnField_of_urlOk "data_url" hok3
    have hW : urlWarnings (fixedOf d cs) = some (wsA ++ ["code_url"] ++ wsC) := by
      refine urlWarnings_eq ?_ ?_ ?_
      · rw [warnLookup_fixedOf_pp]
        exact hA
      · rw [warnLookup_fixedOf_cu, hval]
        exact hbadfield "code_url"
      · rw [warnLookup_fixedOf_du]
        exact hC
    constructor
    · rw [hW]
      simp only [Option.getD_some]
      exact fix_submission_file_of_claims hcs hW
    · rw [hW]
      simp
  · have hval : getD d "data_url" (Val.str "NOT_SPECIFIED") = Val.str s := by simp [getD, hs]
    obtain ⟨wsA, hA⟩ := warnField_of_urlOk "paper_pdf" hok1
    obtain ⟨wsB, hB⟩ := warnField_of_urlOk "code_url" hok2
    have hW : urlWarnings (fixedOf d cs) = some (wsA ++ wsB ++ ["data_url"]) := by
      refine urlWarnings_eq ?_ ?_ ?_
      · rw [warnLookup_fixedOf_pp]
        exact hA
      · rw [warnLookup_fixedOf_cu]
        exact hB
      · rw [warnLookup_fixedOf_du, hval]
        exact hbadfield "data_url"
    constructor
    · rw [hW]
      simp only [Option.getD_some]
      exact fix_submission_file_of_claims hcs hW
    · rw [hW]
      simp

/-- C8 witness: a record whose only field is a malformed `paper_pdf` is
still written with the warning recorded. -/
theorem c8_url_warning_nonfatal_witness :
    fix_submission_file [("paper_pdf", Val.str "ftp://x")]
      = some (fixedOf [("paper_pdf", Val.str "ftp://x")] [],
              (urlWarnings (fixedOf [("paper_pdf", Val.str "ftp://x")] [])).getD []) ∧
    "paper_pdf" ∈ (urlWarnings (fixedOf [("paper_pdf", Val.str "ftp://x")] [])).getD [] :=
  c8_url_warning_nonfatal [("paper_pdf", Val.str "ftp://x")] [] "paper_pdf" "ftp://x"
    (Or.inl rfl) rfl rfl rfl rfl rfl (by decide) (by decide) (by decide)

/-- C3 counterexample: the record whose only instruction is
`"1. 2. foo"` normalizes once to instruction `"2. foo"` and a second pass
strips the surviving `"2. "` prefix down to `"foo"` — the two resulting
records differ, so the transformation is not idempotent. -/
theorem c3_counterexample :
    fix_submission_file [("claims", Val.list [Val.map [("claim", Val.str "X"),
        ("instruction", Val.list [Val.str "1. 2. foo"])]])]
      = some (fixedOf [("claims", Val.list [Val.map [("claim", Val.str "X"),
          ("instruction", Val.list [Val.str "1. 2. foo"])]])]
          [Val.map [("claim", Val.str "X"), ("instruction", Val.list [Val.str "2. foo"])]],
          []) ∧
    fix_submission_file (fixedOf [("claims", Val.list [Val.map [("claim", Val.str "X"),
        ("instruction", Val.list [Val.str "1. 2. foo"])]])]
        [Val.map [("claim", Val.str "X"), ("instruction", Val.list [Val.str "2. foo"])]])
      = some (fixedOf (fixedOf [("claims", Val.list [Val.map [("claim", Val.str "X"),
          ("instruction", Val.list [Val.str "1. 2. foo"])]])]
          [Val.map [("claim", Val.str "X"), ("instruction", Val.list [Val.str "2. foo"])]])
          [Val.map [("claim", Val.str "X"), ("instruction", Val.list [Val.str "foo"])]],
          []) ∧
    recInstStrings (fixedOf [("claims", Val.list [Val.map [("claim", Val.str "X"),
        ("instruction", Val.list [Val.str "1. 2. foo"])]])]
        [Val.map [("claim", Val.str "X"), ("instruction", Val.list [Val.str "2. foo"])]])
      = ["2. foo"] ∧
    recInstStrings (fixedOf (fixedOf [("claims", Val.list [Val.map [("claim", Val.str "X"),
        ("instruction", Val.list [Val.str "1. 2. foo"])]])]
        [Val.map [("claim", Val.str "X"), ("instruction", Val.list [Val.str "2. foo"])]])
        [Val.map [("claim", Val.str "X"), ("instruction", Val.list [Val.str "foo"])]])
      = ["foo"] ∧
    (["2. foo"] : List String) ≠ ["foo"] :=
  ⟨rfl, rfl, rfl, rfl, by decide⟩

/-- C3 (amended): when `fix_submission_file` succeeds and every
instruction string of the once-normalized record is a fixed point of the
cleaning pass (no surviving digits-period prefix, no trailing whitespace
uncovered by period stripping), a second application returns the very same
record and warnings; without that condition a second pass can differ. -/
theorem c3_idempotent_on_fixed (d r : List (String × Val)) (w : List String)
    (h : fix_submission_file d = some (r, w)) (hfix : cleanedFixed r = true) :
    fix_submission_file r = some (r, w) := by
  obtain ⟨cs, hcs, hr, hw⟩ := fix_submission_file_eq h
  subst hr
  rw [cleanedFixed_fixedOf] at hfix
  have hall := List.all_eq_true.mp hfix
  have hself : ∀ c ∈ cs, fixClaim c = some c := by
    intro c hc
    obtain ⟨a, ha⟩ := fixedClaims_mem hcs c hc
    obtain ⟨cv, ss, hshape⟩ := fixClaim_shape ha
    have hcif := hall c hc
    rw [hshape] at hcif ⊢
    have hcif2 : (List.map Val.str ss).all instrFixedVal = true := hcif
    have hstr : ∀ t ∈ ss, cleanInst t = some t := by
      intro t ht
      have hm := List.all_eq_true.mp hcif2 (Val.str t) (List.mem_map_of_mem Val.str ht)
      exact of_decide_eq_true hm
    have hfc : fixClaim (Val.map [("claim", cv),
          ("instruction", Val.list (List.map Val.str ss))])
        = some (Val.map [("claim", cv),
            ("instruction", Val.list (cleanList (List.map Val.str ss)))]) := rfl
    rw [hfc, cleanList_map_str_id hstr]
  have hfcr : fixedClaims (fixedOf d cs) = some cs := by
    by_cases hnil : cs = []
    · subst hnil
      exact fixedClaims_of_list_nil (lookup_fixedOf_claims d [])
    · rw [fixedClaims_of_list_ne (lookup_fixedOf_claims d cs) hnil]
      exact mapOption_id_of_forall hself
  have hw2 : urlWarnings (fixedOf (fixedOf d cs) cs) = some w := by
    rw [fixedOf_fixedOf]
    exact hw
  have hfin := fix_submission_file_of_claims hfcr hw2
  rw [fixedOf_fixedOf] at hfin
  exact hfin

/-- C3 witness: a once-normalized record whose only instruction is
`"Do thing"` (a fixed point of the cleaning pass) maps to itself. -/
theorem c3_idempotent_on_fixed_witness :
    fix_submission_file (fixedOf [("claims", Val.list [Val.map [("claim", Val.str "X"),
        ("instruction", Val.str "1. Do thing.")]])]
        [Val.map [("claim", Val.str "X"), ("instruction", Val.list [Val.str "Do thing"])]])
      = some (fixedOf [("claims", Val.list [Val.map [("claim", Val.str "X"),
          ("instruction", Val.str "1. Do thing.")]])]
          [Val.map [("claim", Val.str "X"), ("instruction", Val.list [Val.str "Do thing"])]],
          []) :=
  c3_idempotent_on_fixed
    [("claims", Val.list [Val.map [("claim", Val.str "X"),
      ("instruction", Val.str "1. Do thing.")]])]
    (fixedOf [("claims", Val.list [Val.map [("claim", Val.str "X"),
        ("instruction", Val.str "1. Do thing.")]])]
      [Val.map [("claim", Val.str "X"), ("instruction", Val.list [Val.str "Do thing"])]])
    [] rfl (by decide)

/-- C4: an instruction entry of the shape whitespace, digits, a period,
whitespace, then text optionally ended by a period (the regex
`^\s*\d+\.\s*<text>\.?$` with `<text>` read off greedily: non-empty, not
starting or ending with whitespace, not ending with a period) cleans to
exactly `<text>` — numbering prefix gone and no trailing period. -/
theorem c4_numbered_instruction (w1 ds w2 text p : List Char)
    (hw1 : w1.all isPySpace = true) (hw2 : w2.all isPySpace = true)
    (hds0 : ds ≠ []) (hds : ds.all isPyDigit = true)
    (ht0 : text ≠ [])
    (hhead : isPySpace (text.headD '.') = false)
    (hlast1 : isPySpace (lastD text 'x') = false)
    (hlast2 : lastD text 'x' ≠ '.')
    (hp : p = [] ∨ p = ['.']) :
    cleanInstL (w1 ++ (ds ++ '.' :: (w2 ++ (text ++ p)))) = some text := by
  obtain ⟨d0, ds2, rfl⟩ : ∃ d0 ds2, ds = d0 :: ds2 := by
    cases ds with
    | nil => exact absurd rfl hds0
    | cons a t => exact ⟨a, t, rfl⟩
  obtain ⟨t0, text2, htx⟩ : ∃ t0 text2, text = t0 :: text2 := by
    cases text with
    | nil => exact absurd rfl ht0
    | cons a t => exact ⟨a, t, rfl⟩
  obtain ⟨mid, tl, hmid⟩ := exists_concat_of_ne_nil ht0
  have hd0d : isPyDigit d0 = true := by
    simp only [List.all_cons, Bool.and_eq_true] at hds
    exact hds.1
  have hd0s : isPySpace d0 = false := not_pyspace_of_isPyDigit hd0d
  have ht0s : isPySpace t0 = false := by
    rw [htx] at hhead
    exact hhead
  have htls : isPySpace tl = false := by
    rw [hmid, lastD_append_single] at hlast1
    exact hlast1
  have htld : tl ≠ '.' := by
    rw [hmid, lastD_append_single] at hlast2
    exact hlast2
  have hdot : isPyDigit '.' = false := by decide
  rcases hp with rfl | rfl
  · simp only [List.append_nil]
    have hA : (d0 :: ds2) ++ '.' :: (w2 ++ text)
        = ((d0 :: ds2) ++ '.' :: (w2 ++ mid)) ++ [tl] := by
      rw [hmid]
      simp [List.append_assoc]
    have hdropA : ((d0 :: ds2) ++ '.' :: (w2 ++ text)).dropWhile isPySpace
        = (d0 :: ds2) ++ '.' :: (w2 ++ text) := dropWhile_cons_neg hd0s
    have hstrip : stripL (w1 ++ ((d0 :: ds2) ++ '.' :: (w2 ++ text)))
        = (d0 :: ds2) ++ '.' :: (w2 ++ text) := by
      simp only [stripL]
      rw [dropWhile_append_all hw1, hdropA, hA, rdrop_last _ tl htls]
    have htakeA : ((d0 :: ds2) ++ '.' :: (w2 ++ text)).takeWhile isPyDigit
        = d0 :: ds2 := takeWhile_append_cons hds hdot
    have hdropdig : ((d0 :: ds2) ++ '.' :: (w2 ++ text)).dropWhile isPyDigit
        = '.' :: (w2 ++ text) := dropWhile_append_cons hds hdot
    have hsub : stripNumbering ((d0 :: ds2) ++ '.' :: (w2 ++ text)) = text := by
      simp only [stripNumbering, hdropA, htakeA, hdropdig]
      rw [if_neg (by simp)]
      rw [if_pos (show ('.' :: (w2 ++ text)).head? = some '.' from rfl)]
      show (w2 ++ text).dropWhile isPySpace = text
      rw [dropWhile_append_all hw2, htx]
      exact dropWhile_cons_neg ht0s
    have hrs : rstripDots text = text := rstripDots_of_last_ne hmid htld
    simp only [cleanInstL, hstrip, hsub, hrs]
    rw [if_neg (by rw [htx]; simp)]
  · have hA : (d0 :: ds2) ++ '.' :: (w2 ++ (text ++ ['.']))
        = ((d0 :: ds2) ++ '.' :: (w2 ++ text)) ++ ['.'] := by
      simp [List.append_assoc]
    have hdropA : ((d0 :: ds2) ++ '.' :: (w2 ++ (text ++ ['.']))).dropWhile isPySpace
        = (d0 :: ds2) ++ '.' :: (w2 ++ (text ++ ['.'])) := dropWhile_cons_neg hd0s
    have hstrip : stripL (w1 ++ ((d0 :: ds2) ++ '.' :: (w2 ++ (text ++ ['.']))))
        = (d0 :: ds2) ++ '.' :: (w2 ++ (text ++ ['.'])) := by
      simp only [stripL]
      rw [dropWhile_append_all hw1, hdropA, hA,
          rdrop_last _ '.' (by decide : isPySpace '.' = false)]
    have htakeA : ((d0 :: ds2) ++ '.' :: (w2 ++ (text ++ ['.']))).takeWhile isPyDigit
        = d0 :: ds2 := takeWhile_append_cons hds hdot
    have hdropdig : ((d0 :: ds2) ++ '.' :: (w2 ++ (text ++ ['.']))).dropWhile isPyDigit
        = '.' :: (w2 ++ (text ++ ['.'])) := dropWhile_append_cons hds hdot
    have hsub : stripNumbering ((d0 :: ds2) ++ '.' :: (w2 ++ (text ++ ['.'])))
        = text ++ ['.'] := by
      simp only [stripNumbering, hdropA, htakeA, hdropdig]
      rw [if_neg (by simp)]
      rw [if_pos (show ('.' :: (w2 ++ (text ++ ['.']))).head? = some '.' from rfl)]
      show (w2 ++ (text ++ ['.'])).dropWhile isPySpace = text ++ ['.']
      rw [dropWhile_append_all hw2, htx]
      exact dropWhile_cons_neg ht0s
    have hrs : rstripDots (text ++ ['.']) = text := rstripDots_append_dot hmid htld
    simp only [cleanInstL, hstrip, hsub, hrs]
    rw [if_neg (by rw [htx]; simp)]

/-- C4 witness: `" 1.  Run the script."` cleans to `"Run the script"`. -/
theorem c4_numbered_instruction_witness :
    cleanInstL ([' '] ++ (['1'] ++ '.' :: ([' ', ' '] ++ ("Run the script".toList ++ ['.']))))
      = some ("Run the script".toList) :=
  c4_numbered_instruction [' '] ['1'] [' ', ' '] "Run the script".toList ['.']
    (by decide) (by decide) (by decide) (by decide) (by decide) (by decide) (by decide)
    (by decide) (Or.inr rfl)
